import Mathlib

/-!
Shallow embedding of `pagerank.py` (repository PageRank-AI).

Pages are the HTML file names; a corpus is Python's insertion-ordered
dict mapping each page to the set of pages it links to, embedded here as
an association list whose value lists play the role of the sets
(well-formed corpora have duplicate-free lists).  Python floats are
idealized as rationals.  `random.choice` / `random.choices` are modelled
by an explicit stream of indices supplied to the sampler, and the
unbounded `while True` loop of `iterate_pagerank` by a fuel parameter.
-/

namespace PageRank

abbrev Page := String

abbrev Corpus := List (Page × List Page)

abbrev RankTable := List (Page × ℚ)

/-- The keys of a Python dict, in insertion order. -/
def keys (c : Corpus) : List Page := c.map Prod.fst

/-- Subscript `corpus[page]`: the outbound-link set of `page` (empty if absent;
the Python code only subscripts with present keys). -/
def linksOf (c : Corpus) (p : Page) : List Page :=
  (c.find? (fun e => e.1 == p)).elim [] Prod.snd

/-- Subscript `table[p]` for a rank/probability dict (0 if absent; the Python code
only subscripts with present keys). -/
def lookupD (t : RankTable) (p : Page) : ℚ :=
  (t.find? (fun e => e.1 == p)).elim 0 Prod.snd

/-- Sum of the values of a rank/probability dict. -/
def sumValues (t : RankTable) : ℚ := (t.map Prod.snd).sum

/-- Well-formed corpus, as produced by `crawl`: distinct page names,
each outbound list duplicate-free (a Python set), and every link target
a page of the corpus. -/
def WF (c : Corpus) : Prop :=
  (keys c).Nodup ∧ (∀ e ∈ c, e.2.Nodup) ∧ (∀ e ∈ c, ∀ l ∈ e.2, l ∈ keys c)

instance (c : Corpus) : Decidable (WF c) := by
  unfold WF
  infer_instance

/-- Constant `DAMPING = 0.85`. -/
def DAMPING : ℚ := 85 / 100

/-- Statement `cont[l] += w` (a no-op when `l` is absent; Python would raise
`KeyError`, which never happens on well-formed corpora). -/
def addWeight (cont : RankTable) (l : Page) (w : ℚ) : RankTable :=
  cont.map (fun e => if e.1 = l then (e.1, e.2 + w) else e)

/-- Function `transition_model(corpus, page, damping_factor)` from pagerank.py:
if `page` has links, give every corpus page `(1-d)/N` and then add
`d/L` to each linked page; otherwise the uniform distribution `1/N`. -/
def transition_model (corpus : Corpus) (page : Page) (d : ℚ) : RankTable :=
  let links := linksOf corpus page
  if links.length ≠ 0 then
    links.foldl (fun cont l => addWeight cont l (d / (links.length : ℚ)))
      ((keys corpus).map (fun q => (q, (1 - d) / (corpus.length : ℚ))))
  else
    (keys corpus).map (fun q => (q, 1 / (corpus.length : ℚ)))

/-- Statement `cont[p] += 1` on an integer-counter dict. -/
def incrCount (cont : List (Page × ℕ)) (p : Page) : List (Page × ℕ) :=
  cont.map (fun e => if e.1 = p then (e.1, e.2 + 1) else e)

/-- One draw of `random.choice` / `random.choices` from a non-empty list,
driven by an index from the explicit random stream. -/
def randChoice (l : List Page) (i : ℕ) : Page := l.getD (i % l.length) ""

/-- Function `sample_pagerank(corpus, damping_factor, n)` from pagerank.py, with
the random source made explicit as a stream `g` of indices: pick a start
page, bump its counter, then `n` times pick the next page from the
transition model of the current page and bump its counter; finally
divide every counter by `n`. -/
def sample_pagerank (corpus : Corpus) (d : ℚ) (n : ℕ) (g : List ℕ) : RankTable :=
  let cont0 : List (Page × ℕ) := (keys corpus).map (fun k => (k, 0))
  let p0 := randChoice (keys corpus) (g.getD 0 0)
  let res := (List.range n).foldl
    (fun (st : List (Page × ℕ) × Page) i =>
      let sample := transition_model corpus st.2 d
      let pg := randChoice (sample.map Prod.fst) (g.getD (i + 1) 0)
      (incrCount st.1 pg, pg))
    (incrCount cont0 p0, p0)
  res.1.map (fun e => (e.1, (e.2 : ℚ) / (n : ℚ)))

/-- The inner `for page in corpus` accumulation of `iterate_pagerank`:
pages linking to `key` contribute `ans[page]/len(links)`, pages with no
links contribute `ans[page]/N`. -/
def inboundSum (corpus : Corpus) (ans : RankTable) (key : Page) : ℚ :=
  (corpus.map (fun e =>
    if key ∈ e.2 then lookupD ans e.1 / (e.2.length : ℚ)
    else if e.2.length = 0 then lookupD ans e.1 / (corpus.length : ℚ)
    else 0)).sum

/-- The value `new` computed for `key` by `iterate_pagerank` from the
current table `ans`. -/
def newRank (corpus : Corpus) (d : ℚ) (ans : RankTable) (key : Page) : ℚ :=
  (1 - d) / (corpus.length : ℚ) + d * inboundSum corpus ans key

/-- Statement `ans[key] = v`. -/
def setVal (t : RankTable) (k : Page) (v : ℚ) : RankTable :=
  t.map (fun e => if e.1 = k then (e.1, v) else e)

/-- One step of the `for key in corpus` loop of `iterate_pagerank`:
compute `new` from the current (partially updated) table, bump the
convergence counter if `|ans[key] - new| < 0.001`, store `new`. -/
def passStep (corpus : Corpus) (d : ℚ) (st : RankTable × ℕ) (key : Page) :
    RankTable × ℕ :=
  let new := newRank corpus d st.1 key
  let cnt := if |lookupD st.1 key - new| < 1 / 1000 then st.2 + 1 else st.2
  (setVal st.1 key new, cnt)

/-- One full pass of the `while True` body: scan all keys in order,
updating the table in place and counting converged pages. -/
def iteratePass (corpus : Corpus) (d : ℚ) (ans : RankTable) : RankTable × ℕ :=
  (keys corpus).foldl (passStep corpus d) (ans, 0)

/-- The `while True` loop of `iterate_pagerank`, with fuel: run passes
until a pass reports `count == N`, returning the table then. -/
def iterLoop (fuel : ℕ) (corpus : Corpus) (d : ℚ) (ans : RankTable) :
    Option RankTable :=
  match fuel with
  | 0 => none
  | fuel + 1 =>
    let r := iteratePass corpus d ans
    if r.2 = corpus.length then some r.1 else iterLoop fuel corpus d r.1

/-- The initial table of `iterate_pagerank`: every page at `1/N`. -/
def initRanks (corpus : Corpus) : RankTable :=
  (keys corpus).map (fun k => (k, 1 / (corpus.length : ℚ)))

/-- Function `iterate_pagerank(corpus, damping_factor)` from pagerank.py. -/
def iterate_pagerank (fuel : ℕ) (corpus : Corpus) (d : ℚ) : Option RankTable :=
  iterLoop fuel corpus d (initRanks corpus)

/-- The spec's description of a pass: every `new(p)` computed from the
single snapshot `ans` of the previous pass's ranks.  Stated from the
spec's words, for comparison with the in-place `iteratePass` above. -/
def snapshotPass (corpus : Corpus) (d : ℚ) (ans : RankTable) : RankTable :=
  (keys corpus).map (fun k => (k, newRank corpus d ans k))

/-- Python's `filename.endswith(".html")`. -/
def endsWithHtml (s : String) : Bool := ".html".data.isSuffixOf s.data

/-- The first loop of `crawl(directory)` from pagerank.py, with the
directory listing given as `(filename, contents)` pairs and the regex
link extraction `re.findall(...)` as an explicit function `findall`:
keep `.html` files and give each the set of extracted targets minus the
file itself (`set(links) - {filename}`). -/
def crawlPages (findall : String → List String)
    (docs : List (String × String)) : Corpus :=
  (docs.filter (fun fc => endsWithHtml fc.1)).map
    (fun fc => (fc.1, ((findall fc.2).dedup.filter (fun l => l ≠ fc.1))))

/-- The second loop of `crawl`: only keep links to other pages of the
corpus. -/
def crawl (findall : String → List String) (docs : List (String × String)) :
    Corpus :=
  (crawlPages findall docs).map
    (fun e => (e.1, e.2.filter (fun l => l ∈ keys (crawlPages findall docs))))

/-- Variant of `transition_model` with the corpus threaded as mutable state: every
statement of the Python body reads the corpus and writes only `cont`,
so the translation returns the corpus component alongside the result. -/
def transition_modelF (corpus : Corpus) (page : Page) (d : ℚ) :
    RankTable × Corpus :=
  let links := linksOf corpus page
  if links.length ≠ 0 then
    links.foldl
      (fun (s : RankTable × Corpus) l =>
        (addWeight s.1 l (d / (links.length : ℚ)), s.2))
      ((keys corpus).map (fun q => (q, (1 - d) / (corpus.length : ℚ))), corpus)
  else
    ((keys corpus).map (fun q => (q, 1 / (corpus.length : ℚ))), corpus)

/-- Variant of `sample_pagerank` with the corpus threaded as mutable state through
the sampling loop (the loop body reads it and writes only `cont` and
`page`). -/
def sample_pagerankF (corpus : Corpus) (d : ℚ) (n : ℕ) (g : List ℕ) :
    RankTable × Corpus :=
  let cont0 : List (Page × ℕ) := (keys corpus).map (fun k => (k, 0))
  let p0 := randChoice (keys corpus) (g.getD 0 0)
  let res := (List.range n).foldl
    (fun (st : (List (Page × ℕ) × Page) × Corpus) i =>
      let sample := transition_model st.2 st.1.2 d
      let pg := randChoice (sample.map Prod.fst) (g.getD (i + 1) 0)
      ((incrCount st.1.1 pg, pg), st.2))
    ((incrCount cont0 p0, p0), corpus)
  (res.1.1.map (fun e => (e.1, (e.2 : ℚ) / (n : ℚ))), res.2)

/-- The `iterate_pagerank` loop with the corpus threaded as mutable
state through every pass. -/
def iterLoopF (fuel : ℕ) (d : ℚ) (corpus : Corpus) (ans : RankTable) :
    Option RankTable × Corpus :=
  match fuel with
  | 0 => (none, corpus)
  | fuel + 1 =>
    let r := (keys corpus).foldl
      (fun (s : (RankTable × ℕ) × Corpus) key => (passStep s.2 d s.1 key, s.2))
      ((ans, 0), corpus)
    if r.1.2 = r.2.length then (some r.1.1, r.2) else iterLoopF fuel d r.2 r.1.1

/-- Variant of `transition_model` with an explicit random stream threaded through:
the Python body never consults `random`, so the stream passes through
untouched. -/
def transition_modelR (corpus : Corpus) (page : Page) (d : ℚ) (g : List ℕ) :
    RankTable × List ℕ :=
  (transition_model corpus page d, g)

/-- Variant of `iterate_pagerank` with an explicit random stream threaded through:
the Python body never consults `random`, so the stream passes through
untouched. -/
def iterate_pagerankR (fuel : ℕ) (corpus : Corpus) (d : ℚ) (g : List ℕ) :
    Option RankTable × List ℕ :=
  (iterate_pagerank fuel corpus d, g)

/-- A three-file directory listing used to instantiate `crawl`. -/
def docsW : List (String × String) :=
  [("a.html", "xa"), ("b.html", "xb"), ("notes.txt", "xa")]

/-- A concrete link-extraction function used to instantiate `crawl`:
from `a.html`'s contents it extracts a link to `b.html`, a dangling
link, and a self link. -/
def findallW : String → List String :=
  fun s => if s = "xa" then ["b.html", "c.html", "a.html", "b.html"] else []

/-- The two-page example corpus `{A: {B}, B: {}}` (B is a sink). -/
def corpusAB : Corpus := [("A", ["B"]), ("B", [])]

/-- A one-page corpus whose single page is a sink. -/
def corpusOne : Corpus := [("A", [])]

/-- A six-page corpus: an impulse travels `c1 → c2 → {q0, q1} → k → Z`
(Z a sink), reaching `q0`,`q1` exactly at the pass where every in-pass
change first drops below 0.001. -/
def corpusPulse : Corpus :=
  [("k", ["Z"]), ("q0", ["k"]), ("q1", ["k"]), ("Z", []),
   ("c2", ["q0", "q1"]), ("c1", ["c2"])]

/- Batteries marks the rational operations irreducible, which blocks
`decide` on concrete corpora; restore default reducibility here. -/
attribute [local semireducible] Rat.add Rat.mul Rat.sub Rat.inv

/-! ### Association-list helper lemmas -/

theorem lookupD_nil (p : Page) : lookupD [] p = 0 := rfl

theorem lookupD_cons (e : Page × ℚ) (t : RankTable) (p : Page) :
    lookupD (e :: t) p = if e.1 = p then e.2 else lookupD t p := by
  by_cases h : e.1 = p
  · rw [lookupD, List.find?_cons_of_pos _ (by simpa using h)]
    simp [h]
  · rw [lookupD, List.find?_cons_of_neg _ (by simpa using h)]
    simp [h, lookupD]

theorem linksOf_cons (e : Page × List Page) (c : Corpus) (p : Page) :
    linksOf (e :: c) p = if e.1 = p then e.2 else linksOf c p := by
  by_cases h : e.1 = p
  · rw [linksOf, List.find?_cons_of_pos _ (by simpa using h)]
    simp [h]
  · rw [linksOf, List.find?_cons_of_neg _ (by simpa using h)]
    simp [h, linksOf]

theorem addWeight_cons (e : Page × ℚ) (t : RankTable) (l : Page) (w : ℚ) :
    addWeight (e :: t) l w =
      (if e.1 = l then (e.1, e.2 + w) else e) :: addWeight t l w := rfl

theorem setVal_cons (e : Page × ℚ) (t : RankTable) (k : Page) (v : ℚ) :
    setVal (e :: t) k v = (if e.1 = k then (e.1, v) else e) :: setVal t k v :=
  rfl

theorem lookupD_map_of_mem (l : List Page) (f : Page → ℚ) (p : Page)
    (hp : p ∈ l) : lookupD (l.map fun q => (q, f q)) p = f p := by
  induction l with
  | nil => cases hp
  | cons a l ih =>
    rw [List.map_cons, lookupD_cons]
    by_cases hap : a = p
    · simp [hap]
    · rcases List.mem_cons.mp hp with h | h
      · exact absurd h.symm hap
      · simpa [hap] using ih h

theorem map_fst_map_pair (l : List Page) (f : Page → ℚ) :
    ((l.map fun q => (q, f q)).map Prod.fst) = l := by
  induction l with
  | nil => rfl
  | cons a l ih => simpa using ih

theorem addWeight_map_fst (t : RankTable) (l : Page) (w : ℚ) :
    (addWeight t l w).map Prod.fst = t.map Prod.fst := by
  induction t with
  | nil => rfl
  | cons e t ih =>
    rw [addWeight_cons]
    by_cases hel : e.1 = l <;> simp [hel, ih]

theorem lookupD_addWeight_ne (t : RankTable) (l p : Page) (w : ℚ)
    (hne : p ≠ l) : lookupD (addWeight t l w) p = lookupD t p := by
  induction t with
  | nil => rfl
  | cons e t ih =>
    rw [addWeight_cons, lookupD_cons, lookupD_cons]
    by_cases hel : e.1 = l
    · have hep : e.1 ≠ p := by rw [hel]; exact fun h => hne h.symm
      simp [hel, hep, Ne.symm hne, ih]
    · by_cases hep : e.1 = p <;> simp [hel, hep, hne, ih]

theorem lookupD_addWeight_self (t : RankTable) (l : Page) (w : ℚ)
    (hl : l ∈ t.map Prod.fst) :
    lookupD (addWeight t l w) l = lookupD t l + w := by
  induction t with
  | nil => cases hl
  | cons e t ih =>
    rw [addWeight_cons, lookupD_cons, lookupD_cons]
    by_cases hel : e.1 = l
    · simp [hel]
    · have hl' : l ∈ t.map Prod.fst := by
        rw [List.map_cons] at hl
        rcases List.mem_cons.mp hl with h | h
        · exact absurd h.symm hel
        · exact h
      simp [hel, ih hl']

theorem foldl_addWeight_map_fst (links : List Page) (w : ℚ) (t : RankTable) :
    ((links.foldl (fun cont l => addWeight cont l w) t).map Prod.fst) =
      t.map Prod.fst := by
  induction links generalizing t with
  | nil => rfl
  | cons a links ih => simpa [addWeight_map_fst] using ih (addWeight t a w)

theorem lookupD_foldl_addWeight (links : List Page) (w : ℚ) (t : RankTable)
    (p : Page) (hp : p ∈ t.map Prod.fst) (hnd : links.Nodup) :
    lookupD (links.foldl (fun cont l => addWeight cont l w) t) p =
      lookupD t p + (if p ∈ links then w else 0) := by
  induction links generalizing t with
  | nil => simp
  | cons a links ih =>
    have hp' : p ∈ (addWeight t a w).map Prod.fst := by
      rwa [addWeight_map_fst]
    by_cases hpa : p = a
    · subst hpa
      have hnotin : p ∉ links := (List.nodup_cons.mp hnd).1
      rw [List.foldl_cons, ih (addWeight t p w) hp' (List.nodup_cons.mp hnd).2,
        lookupD_addWeight_self t p w hp]
      simp [hnotin]
    · rw [List.foldl_cons, ih (addWeight t a w) hp' (List.nodup_cons.mp hnd).2,
        lookupD_addWeight_ne t a p w hpa]
      simp [hpa]

theorem linksOf_mem (c : Corpus) (p : Page) (hp : p ∈ keys c) :
    (p, linksOf c p) ∈ c := by
  induction c with
  | nil => cases hp
  | cons e c ih =>
    rw [linksOf_cons]
    by_cases hep : e.1 = p
    · simp [← hep]
    · rcases List.mem_cons.mp hp with h | h
      · exact absurd h.symm hep
      · simp [hep, ih h]

theorem linksOf_eq_of_mem (c : Corpus) (k : Page) (v : List Page)
    (hnd : (keys c).Nodup) (hm : (k, v) ∈ c) : linksOf c k = v := by
  induction c with
  | nil => cases hm
  | cons e c ih =>
    rw [keys, List.map_cons] at hnd
    rw [linksOf_cons]
    rcases List.mem_cons.mp hm with h | h
    · simp [← h]
    · have hk : k ∈ keys c := List.mem_map_of_mem Prod.fst h
      have hek : e.1 ≠ k := fun he => (List.nodup_cons.mp hnd).1 (he ▸ hk)
      simp [hek, ih (List.nodup_cons.mp hnd).2 h]

theorem transition_model_map_fst (c : Corpus) (p : Page) (d : ℚ) :
    (transition_model c p d).map Prod.fst = keys c := by
  by_cases h : (linksOf c p).length ≠ 0
  · simp only [transition_model]
    rw [if_pos h, foldl_addWeight_map_fst, map_fst_map_pair]
  · simp only [transition_model]
    rw [if_neg h, map_fst_map_pair]

theorem addWeight_of_not_mem (t : RankTable) (l : Page) (w : ℚ)
    (hl : l ∉ t.map Prod.fst) : addWeight t l w = t := by
  induction t with
  | nil => rfl
  | cons e t ih =>
    rw [List.map_cons] at hl
    have hel : e.1 ≠ l := fun h => hl (List.mem_cons.mpr (Or.inl h.symm))
    rw [addWeight_cons, if_neg hel, ih (fun h => hl (List.mem_cons_of_mem _ h))]

theorem sumValues_cons (e : Page × ℚ) (t : RankTable) :
    sumValues (e :: t) = e.2 + sumValues t := by
  simp [sumValues]

theorem sumValues_map_pair_const (l : List Page) (x : ℚ) :
    sumValues (l.map fun q => (q, x)) = (l.length : ℚ) * x := by
  induction l with
  | nil => simp [sumValues]
  | cons a l ih =>
    rw [List.map_cons, sumValues_cons, ih, List.length_cons]
    push_cast
    ring

theorem sumValues_addWeight (t : RankTable) (l : Page) (w : ℚ)
    (hl : l ∈ t.map Prod.fst) (hnd : (t.map Prod.fst).Nodup) :
    sumValues (addWeight t l w) = sumValues t + w := by
  induction t with
  | nil => cases hl
  | cons e t ih =>
    rw [List.map_cons] at hl hnd
    rw [addWeight_cons]
    by_cases hel : e.1 = l
    · have hlt : l ∉ t.map Prod.fst := fun h =>
        (List.nodup_cons.mp hnd).1 (hel ▸ h)
      rw [if_pos hel, sumValues_cons, sumValues_cons,
        addWeight_of_not_mem t l w hlt]
      ring
    · have hl' : l ∈ t.map Prod.fst := by
        rcases List.mem_cons.mp hl with h | h
        · exact absurd h.symm hel
        · exact h
      rw [if_neg hel, sumValues_cons, sumValues_cons,
        ih hl' (List.nodup_cons.mp hnd).2]
      ring

theorem sumValues_foldl_addWeight (links : List Page) (w : ℚ) (t : RankTable)
    (hsub : ∀ l ∈ links, l ∈ t.map Prod.fst) (hnd : (t.map Prod.fst).Nodup) :
    sumValues (links.foldl (fun cont l => addWeight cont l w) t) =
      sumValues t + (links.length : ℚ) * w := by
  induction links generalizing t with
  | nil => simp
  | cons a links ih =>
    rw [List.foldl_cons,
      ih (addWeight t a w)
        (fun l hl => by
          rw [addWeight_map_fst]; exact hsub l (List.mem_cons_of_mem _ hl))
        (by rw [addWeight_map_fst]; exact hnd),
      sumValues_addWeight t a w (hsub a (List.mem_cons_self _ _)) hnd,
      List.length_cons]
    push_cast
    ring

/-! ### Claims C4, C5, C6: the transition model -/

/-- C4: for every corpus, every damping factor in `[0, 1]`, and every
corpus page with an empty outbound set, `transition_model` returns the
distribution assigning exactly `1/N` to every corpus page (the sink
included), with no dependence on the damping factor. -/
theorem transition_model_sink_uniform (c : Corpus) (p : Page) (d : ℚ)
    (hp : p ∈ keys c) (hd0 : 0 ≤ d) (hd1 : d ≤ 1)
    (hsink : linksOf c p = []) :
    ∀ q ∈ keys c, lookupD (transition_model c p d) q = 1 / (c.length : ℚ) := by
  intro q hq
  simp only [transition_model, hsink]
  rw [if_neg (by simp)]
  exact lookupD_map_of_mem _ _ _ hq

/-- Witness for C4 on the concrete corpus `{A: {B}, B: {}}` at its sink
page `B`. -/
theorem transition_model_sink_uniform_witness :
    ("B" ∈ keys corpusAB ∧ (0 : ℚ) ≤ DAMPING ∧ DAMPING ≤ 1 ∧
        linksOf corpusAB "B" = []) ∧
      ∀ q ∈ keys corpusAB,
        lookupD (transition_model corpusAB "B" DAMPING) q =
          1 / (corpusAB.length : ℚ) :=
  ⟨⟨by decide, by decide, by decide, by decide⟩,
    transition_model_sink_uniform corpusAB "B" DAMPING (by decide) (by decide)
      (by decide) (by decide)⟩

/-- C5: for every well-formed corpus, every corpus page with a non-empty
outbound set of size `L`, and every damping factor `d` in `[0, 1]`,
`transition_model` assigns each corpus page the base `(1 - d)/N`, plus
`d/L` on top of the base exactly for the pages in the outbound set; its
keys are exactly the corpus pages, so no other mass is assigned. -/
theorem transition_model_link_distribution (c : Corpus) (p : Page) (d : ℚ)
    (hwf : WF c) (hp : p ∈ keys c) (hd0 : 0 ≤ d) (hd1 : d ≤ 1)
    (hL : (linksOf c p).length ≠ 0) :
    (transition_model c p d).map Prod.fst = keys c ∧
      ∀ q ∈ keys c, lookupD (transition_model c p d) q =
        (1 - d) / (c.length : ℚ) +
          (if q ∈ linksOf c p then d / ((linksOf c p).length : ℚ) else 0) := by
  refine ⟨transition_model_map_fst c p d, fun q hq => ?_⟩
  have hnd : (linksOf c p).Nodup := hwf.2.1 _ (linksOf_mem c p hp)
  simp only [transition_model]
  rw [if_pos hL,
    lookupD_foldl_addWeight _ _ _ q (by rw [map_fst_map_pair]; exact hq) hnd,
    lookupD_map_of_mem _ _ _ hq]

/-- Witness for C5 on the concrete corpus `{A: {B}, B: {}}` at page `A`. -/
theorem transition_model_link_distribution_witness :
    (WF corpusAB ∧ "A" ∈ keys corpusAB ∧ (0 : ℚ) ≤ DAMPING ∧ DAMPING ≤ 1 ∧
        (linksOf corpusAB "A").length ≠ 0) ∧
      ((transition_model corpusAB "A" DAMPING).map Prod.fst = keys corpusAB ∧
        ∀ q ∈ keys corpusAB, lookupD (transition_model corpusAB "A" DAMPING) q =
          (1 - DAMPING) / (corpusAB.length : ℚ) +
            (if q ∈ linksOf corpusAB "A" then
              DAMPING / ((linksOf corpusAB "A").length : ℚ) else 0)) :=
  ⟨⟨by decide, by decide, by decide, by decide, by decide⟩,
    transition_model_link_distribution corpusAB "A" DAMPING (by decide)
      (by decide) (by decide) (by decide) (by decide)⟩

/-- C6: for every well-formed corpus, every corpus page, and every
damping factor, the distribution returned by `transition_model` sums to
exactly 1 by construction, hence in particular to 1 within `1e-9`. -/
theorem transition_model_sums_to_one (c : Corpus) (p : Page) (d : ℚ)
    (hwf : WF c) (hp : p ∈ keys c) (hd0 : 0 ≤ d) (hd1 : d ≤ 1) :
    sumValues (transition_model c p d) = 1 ∧
      |sumValues (transition_model c p d) - 1| ≤ 1 / 1000000000 := by
  have hc : c ≠ [] := by intro h; subst h; cases hp
  have hN : (c.length : ℚ) ≠ 0 :=
    Nat.cast_ne_zero.mpr (List.length_pos.mpr hc).ne'
  have hsum : sumValues (transition_model c p d) = 1 := by
    by_cases hL : (linksOf c p).length ≠ 0
    · have hLQ : ((linksOf c p).length : ℚ) ≠ 0 := Nat.cast_ne_zero.mpr hL
      simp only [transition_model]
      rw [if_pos hL,
        sumValues_foldl_addWeight _ _ _
          (fun l hl => by
            rw [map_fst_map_pair]
            exact hwf.2.2 _ (linksOf_mem c p hp) l hl)
          (by rw [map_fst_map_pair]; exact hwf.1),
        sumValues_map_pair_const, keys, List.length_map]
      field_simp
    · simp only [transition_model]
      rw [if_neg hL, sumValues_map_pair_const, keys, List.length_map]
      field_simp
  exact ⟨hsum, by rw [hsum]; norm_num⟩

/-- Witness for C6 on the concrete corpus `{A: {B}, B: {}}` at page `A`. -/
theorem transition_model_sums_to_one_witness :
    (WF corpusAB ∧ "A" ∈ keys corpusAB ∧ (0 : ℚ) ≤ DAMPING ∧ DAMPING ≤ 1) ∧
      (sumValues (transition_model corpusAB "A" DAMPING) = 1 ∧
        |sumValues (transition_model corpusAB "A" DAMPING) - 1| ≤
          1 / 1000000000) :=
  ⟨⟨by decide, by decide, by decide, by decide⟩,
    transition_model_sums_to_one corpusAB "A" DAMPING (by decide) (by decide)
      (by decide) (by decide)⟩

/-! ### Claims C1, C3, C8: the iterative ranker -/

/-- C1, counterexample: on the corpus `{A: {B}, B: {}}` with damping
0.85, the first pass of `iterate_pagerank` does NOT compute its values
from the single pass-start snapshot: the in-place pass gives `B` the
value `851/1600` (using `A`'s freshly updated rank) while the snapshot
value is `57/80`. -/
theorem inPlace_differs_from_snapshot :
    (iteratePass corpusAB DAMPING (initRanks corpusAB)).1 ≠
      snapshotPass corpusAB DAMPING (initRanks corpusAB) := by decide

/-- C3, counterexample: on `{A: {B}, B: {}}` with damping 0.85 the
iteration does converge (after 16 passes), but `A`'s final rank is
about 0.349, not 0.5: it misses 0.5 by far more than the 0.001
tolerance. -/
theorem iterate_corpusAB_far_from_half :
    (iterate_pagerank 16 corpusAB DAMPING).isSome = true ∧
      ¬ |lookupD ((iterate_pagerank 16 corpusAB DAMPING).getD []) "A" -
            1 / 2| <
          1 / 1000 := by decide

/-- C3, amended: on `{A: {B}, B: {}}` with damping 0.85 the iteration
converges with `A ≈ 0.349` and `B ≈ 0.646`, each within 1/250 of the
true fixed point `(20/57, 37/57) ≈ (0.351, 0.649)`. -/
theorem iterate_corpusAB_near_fixed_point :
    (iterate_pagerank 16 corpusAB DAMPING).isSome = true ∧
      |lookupD ((iterate_pagerank 16 corpusAB DAMPING).getD []) "A" -
          20 / 57| <
        1 / 250 ∧
      |lookupD ((iterate_pagerank 16 corpusAB DAMPING).getD []) "B" -
          37 / 57| <
        1 / 250 := by decide

/-- C8, counterexample: on the six-page corpus `corpusPulse` with
damping 3/5, `iterate_pagerank` converges (after 5 passes), yet one
further pass moves page `k`'s rank by `732761/585937500 ≈ 0.00125`,
more than 0.001. -/
theorem extra_pass_changes_rank_beyond_tolerance :
    (iterate_pagerank 5 corpusPulse (3 / 5)).isSome = true ∧
      ¬ |lookupD
            (iteratePass corpusPulse (3 / 5)
              ((iterate_pagerank 5 corpusPulse (3 / 5)).getD [])).1 "k" -
          lookupD ((iterate_pagerank 5 corpusPulse (3 / 5)).getD []) "k"| ≤
        1 / 1000 := by decide

theorem setVal_map_fst (t : RankTable) (k : Page) (v : ℚ) :
    (setVal t k v).map Prod.fst = t.map Prod.fst := by
  induction t with
  | nil => rfl
  | cons e t ih =>
    rw [setVal_cons]
    by_cases hek : e.1 = k <;> simp [hek, ih]

theorem lookupD_setVal_ne (t : RankTable) (k p : Page) (v : ℚ)
    (hne : p ≠ k) : lookupD (setVal t k v) p = lookupD t p := by
  induction t with
  | nil => rfl
  | cons e t ih =>
    rw [setVal_cons, lookupD_cons, lookupD_cons]
    by_cases hek : e.1 = k
    · have hep : e.1 ≠ p := by rw [hek]; exact fun h => hne h.symm
      simp [hek, hep, Ne.symm hne, ih]
    · by_cases hep : e.1 = p <;> simp [hek, hep, hne, ih]

theorem lookupD_setVal_self (t : RankTable) (k : Page) (v : ℚ)
    (hk : k ∈ t.map Prod.fst) : lookupD (setVal t k v) k = v := by
  induction t with
  | nil => cases hk
  | cons e t ih =>
    rw [setVal_cons, lookupD_cons]
    by_cases hek : e.1 = k
    · simp [hek]
    · have hk' : k ∈ t.map Prod.fst := by
        rw [List.map_cons] at hk
        rcases List.mem_cons.mp hk with h | h
        · exact absurd h.symm hek
        · exact h
      simp [hek, ih hk']

theorem passStep_map_fst (c : Corpus) (d : ℚ) (st : RankTable × ℕ)
    (key : Page) :
    ((passStep c d st key).1).map Prod.fst = st.1.map Prod.fst := by
  simp only [passStep]
  exact setVal_map_fst _ _ _

theorem foldl_passStep_map_fst (c : Corpus) (d : ℚ) (L : List Page)
    (st : RankTable × ℕ) :
    ((L.foldl (passStep c d) st).1).map Prod.fst = st.1.map Prod.fst := by
  induction L generalizing st with
  | nil => rfl
  | cons a L ih =>
    rw [List.foldl_cons, ih (passStep c d st a), passStep_map_fst]

theorem lookupD_foldl_passStep_not_mem (c : Corpus) (d : ℚ) (L : List Page)
    (st : RankTable × ℕ) (q : Page) (hq : q ∉ L) :
    lookupD ((L.foldl (passStep c d) st).1) q = lookupD st.1 q := by
  induction L generalizing st with
  | nil => rfl
  | cons a L ih =>
    have hqa : q ≠ a := fun h => hq (h ▸ List.mem_cons_self a L)
    rw [List.foldl_cons, ih (passStep c d st a) (fun h => hq (List.mem_cons_of_mem _ h))]
    simp only [passStep]
    exact lookupD_setVal_ne _ _ _ _ hqa

/-- C1, amended: the pass of `iterate_pagerank` updates the table in
place.  When the pass reaches page `k` (key order `L₁ ++ k :: L₂`), the
value it writes for `k` is `newRank` evaluated on the partially updated
table produced by the prefix `L₁` (pages in `L₁` already hold this
pass's values), not on the pass-start snapshot; the convergence
comparison for `k` does use `k`'s own pass-start value, since each page
is updated exactly once per pass. -/
theorem iteratePass_inPlace_characterization (c : Corpus) (d : ℚ)
    (ans : RankTable) (L₁ L₂ : List Page) (k : Page)
    (hkeys : keys c = L₁ ++ k :: L₂) (hnd : (keys c).Nodup)
    (hka : ans.map Prod.fst = keys c) :
    lookupD (iteratePass c d ans).1 k =
      newRank c d (L₁.foldl (passStep c d) (ans, 0)).1 k ∧
      lookupD (L₁.foldl (passStep c d) (ans, 0)).1 k = lookupD ans k := by
  rw [hkeys] at hnd
  have hk1 : k ∉ L₁ := fun h =>
    (List.disjoint_of_nodup_append hnd) h (List.mem_cons_self k L₂)
  have hk2 : k ∉ L₂ := by
    have := (List.nodup_append.mp hnd).2.1
    exact (List.nodup_cons.mp this).1
  have hkc : k ∈ keys c := by
    rw [hkeys]
    exact List.mem_append_right _ (List.mem_cons_self k L₂)
  constructor
  · rw [iteratePass, hkeys, List.foldl_append, List.foldl_cons,
      lookupD_foldl_passStep_not_mem c d L₂ _ k hk2]
    simp only [passStep]
    refine lookupD_setVal_self _ _ _ ?_
    rw [foldl_passStep_map_fst, hka]
    exact hkc
  · exact lookupD_foldl_passStep_not_mem c d L₁ _ k hk1

/-- Witness for the amended C1 on `{A: {B}, B: {}}` at page `B`
(prefix `["A"]`). -/
theorem iteratePass_inPlace_characterization_witness :
    (keys corpusAB = ["A"] ++ "B" :: [] ∧ (keys corpusAB).Nodup ∧
        (initRanks corpusAB).map Prod.fst = keys corpusAB) ∧
      (lookupD (iteratePass corpusAB DAMPING (initRanks corpusAB)).1 "B" =
          newRank corpusAB DAMPING
            ((["A"].foldl (passStep corpusAB DAMPING)
              (initRanks corpusAB, 0)).1) "B" ∧
        lookupD ((["A"].foldl (passStep corpusAB DAMPING)
            (initRanks corpusAB, 0)).1) "B" =
          lookupD (initRanks corpusAB) "B") :=
  ⟨⟨by decide, by decide, by decide⟩,
    iteratePass_inPlace_characterization corpusAB DAMPING
      (initRanks corpusAB) ["A"] [] "B" (by decide) (by decide) (by decide)⟩

theorem foldl_passStep_snd_le (c : Corpus) (d : ℚ) (L : List Page)
    (st : RankTable × ℕ) :
    (L.foldl (passStep c d) st).2 ≤ st.2 + L.length := by
  induction L generalizing st with
  | nil => simp
  | cons a L ih =>
    rw [List.foldl_cons, List.length_cons]
    have h1 : (passStep c d st a).2 ≤ st.2 + 1 := by
      simp only [passStep]
      split <;> omega
    have h2 := ih (passStep c d st a)
    omega

theorem foldl_passStep_full_count (c : Corpus) (d : ℚ) (L : List Page)
    (st : RankTable × ℕ) (q : Page) (hnd : L.Nodup) (hq : q ∈ L)
    (hqt : q ∈ st.1.map Prod.fst)
    (hfull : (L.foldl (passStep c d) st).2 = st.2 + L.length) :
    |lookupD st.1 q - lookupD ((L.foldl (passStep c d) st).1) q| <
      1 / 1000 := by
  induction L generalizing st with
  | nil => cases hq
  | cons a L ih =>
    rw [List.foldl_cons] at hfull ⊢
    by_cases htest : |lookupD st.1 a - newRank c d st.1 a| < 1 / 1000
    · have hstep : (passStep c d st a).2 = st.2 + 1 := by
        simp only [passStep]
        rw [if_pos htest]
      rcases List.mem_cons.mp hq with hqa | hqL
      · subst hqa
        have hnotin : q ∉ L := (List.nodup_cons.mp hnd).1
        rw [lookupD_foldl_passStep_not_mem c d L _ q hnotin]
        simp only [passStep]
        rw [lookupD_setVal_self _ _ _ hqt]
        exact htest
      · have hqa : q ≠ a := fun h => (List.nodup_cons.mp hnd).1 (h ▸ hqL)
        have hka' : q ∈ ((passStep c d st a).1).map Prod.fst := by
          rw [passStep_map_fst]; exact hqt
        have hlq : lookupD (passStep c d st a).1 q = lookupD st.1 q := by
          simp only [passStep]
          exact lookupD_setVal_ne _ _ _ _ hqa
        have hfull' : (L.foldl (passStep c d) (passStep c d st a)).2 =
            (passStep c d st a).2 + L.length := by
          rw [hstep]
          rw [List.length_cons] at hfull
          omega
        have := ih (passStep c d st a) (List.nodup_cons.mp hnd).2 hqL hka' hfull'
        rwa [hlq] at this
    · exfalso
      have h1 : (passStep c d st a).2 = st.2 := by
        simp only [passStep]
        rw [if_neg htest]
      have h2 := foldl_passStep_snd_le c d L (passStep c d st a)
      rw [h1] at h2
      rw [List.length_cons] at hfull
      omega

/-- C8, amended: when `iterate_pagerank` returns, the pass that
triggered the return changed every page's rank by less than 0.001 (that
is exactly what the `count == N` test certifies); a genuinely
additional pass applied to the returned table can change a rank by more
than 0.001, as `extra_pass_changes_rank_beyond_tolerance` shows. -/
theorem iterLoop_final_pass_changes_small (fuel : ℕ) (c : Corpus) (d : ℚ)
    (ans r : RankTable) (hnd : (keys c).Nodup)
    (hka : ans.map Prod.fst = keys c)
    (hsome : iterLoop fuel c d ans = some r) :
    ∃ ans₀, ans₀.map Prod.fst = keys c ∧
      iteratePass c d ans₀ = (r, c.length) ∧
      ∀ p ∈ keys c, |lookupD ans₀ p - lookupD r p| < 1 / 1000 := by
  induction fuel generalizing ans with
  | zero => cases hsome
  | succ fuel ih =>
    simp only [iterLoop] at hsome
    by_cases hc : (iteratePass c d ans).2 = c.length
    · rw [if_pos hc] at hsome
      have hr : (iteratePass c d ans).1 = r := Option.some.inj hsome
      refine ⟨ans, hka, Prod.ext hr hc, fun p hp => ?_⟩
      have hlen : (List.foldl (passStep c d) (ans, 0) (keys c)).2 =
          (0 : ℕ) + (keys c).length := by
        show (iteratePass c d ans).2 = _
        rw [hc, keys, List.length_map]
        omega
      have := foldl_passStep_full_count c d (keys c) (ans, 0) p hnd hp
        (by rw [hka]; exact hp) hlen
      have hfold : (List.foldl (passStep c d) (ans, 0) (keys c)).1 = r := hr
      rwa [hfold] at this
    · rw [if_neg hc] at hsome
      have hka' : ((iteratePass c d ans).1).map Prod.fst = keys c := by
        rw [iteratePass, foldl_passStep_map_fst]
        exact hka
      exact ih (iteratePass c d ans).1 hka' hsome

/-- Witness for the amended C8 on the one-page corpus, which converges
in a single pass to rank 1. -/
theorem iterLoop_final_pass_changes_small_witness :
    ((keys corpusOne).Nodup ∧
        (initRanks corpusOne).map Prod.fst = keys corpusOne ∧
        iterLoop 1 corpusOne DAMPING (initRanks corpusOne) =
          some [("A", 1)]) ∧
      ∃ ans₀, ans₀.map Prod.fst = keys corpusOne ∧
        iteratePass corpusOne DAMPING ans₀ = ([("A", 1)], corpusOne.length) ∧
        ∀ p ∈ keys corpusOne,
          |lookupD ans₀ p - lookupD [("A", 1)] p| < 1 / 1000 :=
  ⟨⟨by decide, by decide, by decide⟩,
    iterLoop_final_pass_changes_small 1 corpusOne DAMPING
      (initRanks corpusOne) [("A", 1)] (by decide) (by decide) (by decide)⟩

/-! ### Claim C2: the sampler's counters -/

/-- C2 (code bug): `sample_pagerank` bumps a counter `n + 1` times (one
initial increment plus one per sample) and then divides by `n`, so on
the one-page corpus with `n = 1` the returned values sum to 2, not 1 —
contradicting the function's own docstring "All PageRank values should
sum to 1". -/
theorem sample_pagerank_sum_two_on_singleton :
    sumValues (sample_pagerank corpusOne DAMPING 1 [0, 0]) = 2 := by decide

/-! ### Claim C7: corpus construction -/

theorem keys_crawl (findall : String → List String)
    (docs : List (String × String)) :
    keys (crawl findall docs) = keys (crawlPages findall docs) := by
  rw [crawl]
  simp only [keys, List.map_map]
  rfl

theorem keys_crawlPages (findall : String → List String)
    (docs : List (String × String)) :
    keys (crawlPages findall docs) =
      (docs.filter (fun fc => endsWithHtml fc.1)).map Prod.fst := by
  rw [crawlPages]
  simp only [keys, List.map_map]
  rfl

theorem keys_crawl_nodup (findall : String → List String)
    (docs : List (String × String)) (hnd : (docs.map Prod.fst).Nodup) :
    (keys (crawl findall docs)).Nodup := by
  rw [keys_crawl, keys_crawlPages]
  exact List.Nodup.sublist ((List.filter_sublist docs).map Prod.fst) hnd

/-- C7: for every directory listing with distinct file names and every
link extraction, `crawl` gives each of its pages an outbound set equal
to the set of extracted targets minus the page itself and minus all
non-corpus targets; hence no outbound set contains its own page and
every outbound set lies inside the corpus's key set. -/
theorem crawl_outbound_characterization (findall : String → List String)
    (docs : List (String × String)) (hnd : (docs.map Prod.fst).Nodup)
    (fc : String × String) (hfc : fc ∈ docs)
    (hhtml : endsWithHtml fc.1 = true) :
    (∀ l, l ∈ linksOf (crawl findall docs) fc.1 ↔
        (l ∈ findall fc.2 ∧ l ≠ fc.1 ∧ l ∈ keys (crawl findall docs))) ∧
      fc.1 ∉ linksOf (crawl findall docs) fc.1 ∧
      ∀ l ∈ linksOf (crawl findall docs) fc.1,
        l ∈ keys (crawl findall docs) := by
  have hnd' : (keys (crawl findall docs)).Nodup :=
    keys_crawl_nodup findall docs hnd
  have h1 : fc ∈ docs.filter (fun fc => endsWithHtml fc.1) :=
    List.mem_filter.mpr ⟨hfc, hhtml⟩
  have h2 : (fc.1, (findall fc.2).dedup.filter (fun l => l ≠ fc.1)) ∈
      crawlPages findall docs := by
    rw [crawlPages]
    exact List.mem_map_of_mem _ h1
  have h3 : (fc.1, ((findall fc.2).dedup.filter (fun l => l ≠ fc.1)).filter
      (fun l => l ∈ keys (crawlPages findall docs))) ∈ crawl findall docs := by
    rw [crawl]
    exact List.mem_map_of_mem _ h2
  have hlinks : linksOf (crawl findall docs) fc.1 =
      ((findall fc.2).dedup.filter (fun l => l ≠ fc.1)).filter
        (fun l => l ∈ keys (crawlPages findall docs)) :=
    linksOf_eq_of_mem _ _ _ hnd' h3
  have hchar : ∀ l, l ∈ linksOf (crawl findall docs) fc.1 ↔
      (l ∈ findall fc.2 ∧ l ≠ fc.1 ∧ l ∈ keys (crawl findall docs)) := by
    intro l
    rw [hlinks, keys_crawl]
    simp only [List.mem_filter, List.mem_dedup, decide_eq_true_eq]
    tauto
  refine ⟨hchar, ?_, fun l hl => ((hchar l).mp hl).2.2⟩
  intro hself
  exact ((hchar fc.1).mp hself).2.1 rfl

/-- Witness for C7 on a concrete three-file directory (two `.html`
files and one `.txt` file) with a concrete extraction function. -/
theorem crawl_outbound_characterization_witness :
    ((docsW.map Prod.fst).Nodup ∧ ("a.html", "xa") ∈ docsW ∧
        endsWithHtml "a.html" = true) ∧
      ((∀ l, l ∈ linksOf (crawl findallW docsW) "a.html" ↔
          (l ∈ findallW "xa" ∧ l ≠ "a.html" ∧
            l ∈ keys (crawl findallW docsW))) ∧
        "a.html" ∉ linksOf (crawl findallW docsW) "a.html" ∧
        ∀ l ∈ linksOf (crawl findallW docsW) "a.html",
          l ∈ keys (crawl findallW docsW)) :=
  ⟨⟨by decide, by decide, by decide⟩,
    crawl_outbound_characterization findallW docsW (by decide)
      ("a.html", "xa") (by decide) (by decide)⟩

/-! ### Claims C9, C10: purity, determinism, key sets -/

theorem foldl_addWeight_pair (links : List Page) (w : ℚ) (t : RankTable)
    (c : Corpus) :
    links.foldl (fun (s : RankTable × Corpus) l => (addWeight s.1 l w, s.2))
        (t, c) =
      (links.foldl (fun cont l => addWeight cont l w) t, c) := by
  induction links generalizing t with
  | nil => rfl
  | cons a links ih => simpa using ih (addWeight t a w)

theorem foldl_sampleStep_pair (L : List ℕ) (d : ℚ) (g : List ℕ)
    (st0 : List (Page × ℕ) × Page) (c : Corpus) :
    L.foldl
        (fun (st : (List (Page × ℕ) × Page) × Corpus) i =>
          ((incrCount st.1.1
              (randChoice ((transition_model st.2 st.1.2 d).map Prod.fst)
                (g.getD (i + 1) 0)),
            randChoice ((transition_model st.2 st.1.2 d).map Prod.fst)
              (g.getD (i + 1) 0)), st.2))
        (st0, c) =
      (L.foldl
        (fun (st : List (Page × ℕ) × Page) i =>
          (incrCount st.1
            (randChoice ((transition_model c st.2 d).map Prod.fst)
              (g.getD (i + 1) 0)),
            randChoice ((transition_model c st.2 d).map Prod.fst)
              (g.getD (i + 1) 0)))
        st0, c) := by
  induction L generalizing st0 with
  | nil => rfl
  | cons a L ih => simpa using ih _

theorem foldl_passStep_pair (L : List Page) (d : ℚ) (st0 : RankTable × ℕ)
    (c : Corpus) :
    L.foldl
        (fun (s : (RankTable × ℕ) × Corpus) key => (passStep s.2 d s.1 key, s.2))
        (st0, c) =
      (L.foldl (passStep c d) st0, c) := by
  induction L generalizing st0 with
  | nil => rfl
  | cons a L ih => simpa using ih (passStep c d st0 a)

theorem transition_modelF_eq (c : Corpus) (p : Page) (d : ℚ) :
    transition_modelF c p d = (transition_model c p d, c) := by
  simp only [transition_modelF, transition_model]
  by_cases h : (linksOf c p).length ≠ 0
  · rw [if_pos h, if_pos h, foldl_addWeight_pair]
  · rw [if_neg h, if_neg h]

theorem sample_pagerankF_eq (c : Corpus) (d : ℚ) (n : ℕ) (g : List ℕ) :
    sample_pagerankF c d n g = (sample_pagerank c d n g, c) := by
  simp only [sample_pagerankF, sample_pagerank]
  rw [foldl_sampleStep_pair]

theorem iterLoopF_eq (fuel : ℕ) (d : ℚ) (c : Corpus) (ans : RankTable) :
    iterLoopF fuel d c ans = (iterLoop fuel c d ans, c) := by
  induction fuel generalizing ans with
  | zero => rfl
  | succ fuel ih =>
    simp only [iterLoopF, iterLoop, iteratePass]
    rw [foldl_passStep_pair]
    by_cases h : (List.foldl (passStep c d) (ans, 0) (keys c)).2 = c.length
    · rw [if_pos h, if_pos h]
    · rw [if_neg h, if_neg h, ih]

/-- C9: none of `transition_model`, `sample_pagerank`, `iterate_pagerank`
mutates the corpus.  In the state-passing embeddings, which thread the
corpus through every loop of the Python bodies, the corpus component of
the final state equals the input corpus, and each function's result
agrees with the plain (pure) embedding of the same code, which is a
function of exactly its declared inputs. -/
theorem pagerank_functions_preserve_corpus (c : Corpus) (p : Page) (d : ℚ)
    (n fuel : ℕ) (g : List ℕ) (ans : RankTable) :
    ((transition_modelF c p d).2 = c ∧
        (transition_modelF c p d).1 = transition_model c p d) ∧
      ((sample_pagerankF c d n g).2 = c ∧
        (sample_pagerankF c d n g).1 = sample_pagerank c d n g) ∧
      ((iterLoopF fuel d c ans).2 = c ∧
        (iterLoopF fuel d c ans).1 = iterLoop fuel c d ans) := by
  rw [transition_modelF_eq, sample_pagerankF_eq, iterLoopF_eq]
  exact ⟨⟨rfl, rfl⟩, ⟨rfl, rfl⟩, rfl, rfl⟩

theorem iterLoop_some_map_fst (fuel : ℕ) (c : Corpus) (d : ℚ)
    (ans r : RankTable) (h : iterLoop fuel c d ans = some r) :
    r.map Prod.fst = ans.map Prod.fst := by
  induction fuel generalizing ans with
  | zero => cases h
  | succ fuel ih =>
    simp only [iterLoop] at h
    by_cases hc : (iteratePass c d ans).2 = c.length
    · rw [if_pos hc] at h
      rw [← Option.some.inj h, iteratePass, foldl_passStep_map_fst]
    · rw [if_neg hc] at h
      rw [ih _ h, iteratePass, foldl_passStep_map_fst]

/-- C10: `transition_model` and `iterate_pagerank` are deterministic:
threaded through an explicit random stream (which their Python bodies
never consult), they return the same result for any two streams and
leave the stream untouched; and the mapping each returns has exactly
the corpus's keys. -/
theorem transition_iterate_deterministic_keys (c : Corpus) (p : Page)
    (d : ℚ) (fuel : ℕ) (g g₁ g₂ : List ℕ) :
    (transition_modelR c p d g₁).1 = (transition_modelR c p d g₂).1 ∧
      (transition_modelR c p d g).2 = g ∧
      (iterate_pagerankR fuel c d g₁).1 = (iterate_pagerankR fuel c d g₂).1 ∧
      (iterate_pagerankR fuel c d g).2 = g ∧
      (transition_model c p d).map Prod.fst = keys c ∧
      ∀ r, iterate_pagerank fuel c d = some r → r.map Prod.fst = keys c := by
  refine ⟨rfl, rfl, rfl, rfl, transition_model_map_fst c p d, fun r hr => ?_⟩
  rw [iterLoop_some_map_fst fuel c d (initRanks c) r hr, initRanks,
    map_fst_map_pair]

/-- Witness for C10 on the one-page corpus, whose iteration returns the
table `[("A", 1)]` after one pass. -/
theorem transition_iterate_deterministic_keys_witness :
    iterate_pagerank 1 corpusOne DAMPING = some [("A", 1)] ∧
      ([(("A" : Page), (1 : ℚ))].map Prod.fst = keys corpusOne) :=
  ⟨by decide,
    (transition_iterate_deterministic_keys corpusOne "A" DAMPING 1 [] []
        []).2.2.2.2.2 [("A", 1)] (by decide)⟩

end PageRank
